import Mathlib

/-!
Verification development for the yuheng-adminextract administrative-boundary
extraction pipeline.  The Python sources are shallowly embedded: relations,
the networkx directed graph, graph construction (`build_graph`), root
selection (`find_root_node_id`), pruning (`prune_graph_to_root`,
`prune_graph_to_level`) and serialization (`graph_to_nested_json`,
`graph_to_plain_json`) become executable Lean functions.  Python `int(...)`
applied to a string is modelled by `pyInt`; a raised exception is modelled
by an `Option`/error constructor; the operator's interactive answers are
modelled as a list of input strings.
-/

namespace AdminExtract

/-- A member entry of an OSM relation: `{type, ref, role}`. -/
structure Member where
  mtype : String
  ref : Int
  role : String
deriving DecidableEq, Repr

/-- An OSM relation record: a tag mapping and an ordered member list. -/
structure Relation where
  tags : List (String × String)
  members : List Member
deriving DecidableEq, Repr

/-- The node attribute record set by `G.add_node(id, admin_level=…, name=…, ref=…)`.
Each field is `none` when the corresponding tag was absent (Python `None`). -/
structure NodeData where
  admin_level : Option String
  name : Option String
  ref : Option String
deriving DecidableEq, Repr

/-- A networkx `DiGraph` as used by the program: nodes in insertion order,
each carrying either an attribute record (`some d`, set by `add_node`) or an
empty attribute dict (`none`, for nodes created implicitly by `add_edge`),
plus the edge list in insertion order. -/
structure DiGraph where
  nodes : List (Int × Option NodeData)
  edges : List (Int × Int)
deriving DecidableEq, Repr

/-- The numeric value of a decimal digit character, `none` otherwise. -/
def digitVal (c : Char) : Option Nat :=
  if '0' ≤ c ∧ c ≤ '9' then some (c.toNat - '0'.toNat) else none

/-- The natural number denoted by a non-empty string of decimal digits. -/
def natOfDigits : List Char → Option Nat
  | [] => none
  | l =>
    l.foldl
      (fun acc c =>
        match acc, digitVal c with
        | some n, some d => some (n * 10 + d)
        | _, _ => none)
      (some 0)

/-- Python `int(s)` on a string (an optional minus sign followed by decimal
digits): `some` the parsed integer, `none` models a raised `ValueError`. -/
def pyInt (s : String) : Option Int :=
  match s.data with
  | '-' :: rest => (natOfDigits rest).map (fun n => -(n : Int))
  | l => (natOfDigits l).map (fun n => (n : Int))

def emptyGraph : DiGraph := ⟨[], []⟩

/-- The node identifiers of a graph, in insertion order (`list(G.nodes)`). -/
def nodeIds (G : DiGraph) : List Int := G.nodes.map Prod.fst

/-- `G.add_node(id, admin_level=…, name=…, ref=…)`: inserts the node or, if
already present, replaces its attribute dict. -/
def add_node (G : DiGraph) (id : Int) (d : NodeData) : DiGraph :=
  if id ∈ nodeIds G then
    { G with nodes := G.nodes.map (fun x => if x.1 = id then (id, some d) else x) }
  else
    { G with nodes := G.nodes ++ [(id, some d)] }

/-- networkx auto-creates a missing endpoint with an empty attribute dict. -/
def ensure_node (G : DiGraph) (id : Int) : DiGraph :=
  if id ∈ nodeIds G then G else { G with nodes := G.nodes ++ [(id, none)] }

/-- `G.add_edge(a, b)`: creates missing endpoints, then records the edge. -/
def add_edge (G : DiGraph) (a b : Int) : DiGraph :=
  let G1 := ensure_node G a
  let G2 := ensure_node G1 b
  if (a, b) ∈ G2.edges then G2 else { G2 with edges := G2.edges ++ [(a, b)] }

/-- `G.remove_node(n)`: drops the node and every incident edge. -/
def remove_node (G : DiGraph) (n : Int) : DiGraph :=
  { nodes := G.nodes.filter (fun x => decide (x.1 ≠ n)),
    edges := G.edges.filter (fun e => decide (e.1 ≠ n) && decide (e.2 ≠ n)) }

/-- `G.successors(n)`: targets of the out-edges of `n`, in insertion order. -/
def successors (G : DiGraph) (n : Int) : List Int :=
  (G.edges.filter (fun e => decide (e.1 = n))).map Prod.snd

/-- `build_graph` (adminextract.py lines 68–107, identically
yuheng_admininspect/__init__.py lines 16–54): every relation tagged
`boundary=administrative` becomes a node carrying the `admin_level`, `name`
and `ref` tag values; every member of such a relation with role `"subarea"`
whose `ref` is a key of `relation_dict` yields an edge, with no check on the
referenced relation's own tags. -/
def buildMemberStep (relation_dict : List (Int × Relation)) (id : Int)
    (H : DiGraph) (m : Member) : DiGraph :=
  if m.role = "subarea" ∧ m.ref ∈ relation_dict.map Prod.fst then
    add_edge H id m.ref
  else H

def buildRelStep (relation_dict : List (Int × Relation)) (G : DiGraph)
    (p : Int × Relation) : DiGraph :=
  let rel := p.2
  let d : NodeData :=
    ⟨rel.tags.lookup "admin_level", rel.tags.lookup "name", rel.tags.lookup "ref"⟩
  if rel.tags.lookup "boundary" = some "administrative" then
    rel.members.foldl (buildMemberStep relation_dict p.1) (add_node G p.1 d)
  else G

def build_graph (relation_dict : List (Int × Relation)) : DiGraph :=
  relation_dict.foldl (buildRelStep relation_dict) emptyGraph

/-- A JSON value, as produced by the serializers (object key order kept). -/
inductive J where
  | null : J
  | num : Int → J
  | str : String → J
  | arr : List J → J
  | obj : List (String × J) → J
deriving Repr

/-- An optional string attribute as a JSON value (`None` serializes to `null`). -/
def jstr : Option String → J
  | none => J.null
  | some s => J.str s

/-- `data.get("admin_level")` on a node's attribute dict: `none` both when the
dict is empty (edge-created node) and when the attribute value is Python
`None`. -/
def getAdmin : Option NodeData → Option String
  | none => none
  | some d => d.admin_level

/-- The integer admin level a node contributes to root candidacy:
`data.get("admin_level")` followed by `int(...)`, with both the missing case
and the `ValueError` case yielding `none` (the node is skipped). -/
def parsedLevel (a : Option NodeData) : Option Int :=
  match getAdmin a with
  | none => none
  | some s => pyInt s

/-- `int(data.get("admin_level", 0))` as used by `graph_to_plain_json` and by
adminextract.py's `recurse`: a missing key defaults to `0`; a key present
with value `None` raises `TypeError`; an unparseable string raises
`ValueError`; both raises are modelled as `none`. -/
def getAdminDefault0 : Option NodeData → Option Int
  | none => some 0
  | some d =>
    match d.admin_level with
    | none => none
    | some s => pyInt s

/-- Outcome of `find_root_node_id`: a returned id, the raised
"no-root-found" `ValueError`, an uncaught `ValueError` from `int(input())`,
an `IndexError` from `root_candidates[0]` on an empty candidate list, or
blocking on operator input beyond the modelled input list. -/
inductive RootOutcome where
  | found : Int → RootOutcome
  | noRoot : RootOutcome
  | badInput : RootOutcome
  | crashed : RootOutcome
  | blocked : RootOutcome
deriving DecidableEq, Repr

/-- One iteration of the candidate-scanning loop of `find_root_node_id`:
state is (`min_level` seen so far — `none` for the initial `inf` — and the
candidate list). Missing or unparseable `admin_level` leaves the state
unchanged (`continue` / swallowed `ValueError`). -/
def rootScanStep (st : Option Int × List (Int × Option NodeData))
    (x : Int × Option NodeData) : Option Int × List (Int × Option NodeData) :=
  match parsedLevel x.2 with
  | none => st
  | some level =>
    match st.1 with
    | none => (some level, [x])
    | some m =>
      if level < m then (some level, [x])
      else if level = m then (some m, st.2 ++ [x])
      else st

/-- The `root_candidates` list computed by `find_root_node_id`'s scan. -/
def root_candidates (G : DiGraph) : List (Int × Option NodeData) :=
  (G.nodes.foldl rootScanStep (none, [])).2

/-- `int(input(...))` at a prompt not wrapped in try/except. -/
def readInt : List String → RootOutcome
  | [] => .blocked
  | s :: _ =>
    match pyInt s with
    | some n => .found n
    | none => .badInput

/-- The tie-breaking prompt loop of `find_root_node_id`: re-prompts on
non-numeric input and on numbers not among the candidate ids. -/
def chooseLoop (ids : List Int) : List String → RootOutcome
  | [] => .blocked
  | s :: rest =>
    match pyInt s with
    | some n => if n ∈ ids then .found n else chooseLoop ids rest
    | none => chooseLoop ids rest

/-- `find_root_node_id` (adminextract.py lines 177–247), with the operator's
successive answers passed as `inputs`. -/
def find_root_node_id (G : DiGraph) (strategy : String) (inputs : List String) :
    RootOutcome :=
  if strategy = "input" then readInt inputs
  else if (root_candidates G).isEmpty then
    if strategy = "highest" then .noRoot
    else if strategy = "auto" then readInt inputs
    else .crashed
  else if 1 < (root_candidates G).length then
    chooseLoop ((root_candidates G).map Prod.fst) inputs
  else
    match (root_candidates G).head? with
    | some x => .found x.1
    | none => .crashed

/-! ### Pruning (prune.py) -/

/-- The reachability-saturation step behind `nx.descendants`: extend the
visited list by the targets of all edges leaving it. -/
def stepR (edges : List (Int × Int)) (acc : List Int) : List Int :=
  acc ++ ((edges.filter (fun e => decide (e.1 ∈ acc) && decide (e.2 ∉ acc))).map
    Prod.snd).dedup

/-- Iterated saturation. -/
def reachGo (edges : List (Int × Int)) : Nat → List Int → List Int
  | 0, acc => acc
  | f + 1, acc => reachGo edges f (stepR edges acc)

/-- `set(nx.descendants(G, root)) | {root}`: the nodes reachable from
`root`, computed by saturating for `G.edges.length` rounds (enough to reach
the fixed point, as proved below). -/
def reachList (G : DiGraph) (root : Int) : List Int :=
  reachGo G.edges G.edges.length [root]

/-- `prune_graph_to_root` (prune.py lines 6–32): keep only the nodes
reachable from `root_id`, removing the rest (and their incident edges) one
by one.  `none` models the `NetworkXError` that `nx.descendants` raises when
`root_id` is not a node of `G`. -/
def prune_graph_to_root (G : DiGraph) (root_id : Int) : Option DiGraph :=
  if root_id ∈ nodeIds G then
    let reachable := reachList G root_id
    some ((nodeIds G).foldl
      (fun H n => if n ∈ reachable then H else remove_node H n) G)
  else none

/-- The mark decision of `prune_graph_to_level`'s scan for one parsed level:
`if stop_level is not None and level > stop_level: … elif only_level is not
None and level != only_level: …`. -/
def markOf (stop_level only_level : Option Int) (level : Int) : Bool :=
  match stop_level with
  | some sl =>
    if sl < level then true
    else
      match only_level with
      | some ol => decide (level ≠ ol)
      | none => false
  | none =>
    match only_level with
    | some ol => decide (level ≠ ol)
    | none => false

/-- The `nodes_to_remove` list collected by `prune_graph_to_level`'s scan:
nodes with a missing `admin_level` are skipped, an unparseable one raises
`ValueError` (modelled as `none`). -/
def nodes_to_remove (stop_level only_level : Option Int) :
    List (Int × Option NodeData) → Option (List Int)
  | [] => some []
  | x :: rest =>
    match getAdmin x.2 with
    | none => nodes_to_remove stop_level only_level rest
    | some s =>
      match pyInt s with
      | none => none
      | some level =>
        match nodes_to_remove stop_level only_level rest with
        | none => none
        | some t => some (if markOf stop_level only_level level then x.1 :: t else t)

/-- The i18n key of the conflicting-parameters diagnostic; the lookup of its
localized text is external to the core. -/
def conflictMsg : String := "error_conflict"

/-- `prune_graph_to_level` (prune.py lines 35–79): returns the printed
diagnostics together with either the pruned graph or `none` for a raised
`ValueError`. -/
def prune_graph_to_level (G : DiGraph) (stop_level only_level : Option Int) :
    List String × Option DiGraph :=
  let diags := if stop_level.isSome ∧ only_level.isSome then [conflictMsg] else []
  match nodes_to_remove stop_level only_level G.nodes with
  | none => (diags, none)
  | some marked => (diags, some (marked.foldl remove_node G))

/-! ### Serialization (transform.py) -/

/-- The `**node_data` splice: the attribute fields in dict insertion order,
or nothing for an edge-created node with an empty attribute dict. -/
def attrFields : Option NodeData → List (String × J)
  | none => []
  | some d => [("admin_level", jstr d.admin_level), ("name", jstr d.name),
      ("ref", jstr d.ref)]

/-- `{"id": node, **data}` for one node of the flat serialization. -/
def plainNodeJson (x : Int × Option NodeData) : J :=
  J.obj (("id", J.num x.1) :: attrFields x.2)

/-- The filtered node collection of `graph_to_plain_json` when an
`admin_level` filter is given; `none` models the exception raised by
`int(data.get("admin_level", 0))`. -/
def plainFiltered (lvl : Int) : List (Int × Option NodeData) → Option (List J)
  | [] => some []
  | x :: rest =>
    match getAdminDefault0 x.2 with
    | none => none
    | some l =>
      match plainFiltered lvl rest with
      | none => none
      | some t => some (if l = lvl then plainNodeJson x :: t else t)

/-- `graph_to_plain_json` (transform.py lines 49–82, identically
adminextract.py lines 156–174): a flat `{"nodes": [...]}` structure; with no
filter the level is never parsed (the `or` short-circuits), with a filter a
node whose `admin_level` attribute is `None` or unparseable raises. -/
def graph_to_plain_json (G : DiGraph) (admin_level : Option Int) : Option J :=
  match admin_level with
  | none => some (J.obj [("nodes", J.arr (G.nodes.map plainNodeJson))])
  | some lvl =>
    match plainFiltered lvl G.nodes with
    | none => none
    | some js => some (J.obj [("nodes", J.arr js)])

/-- Outcome of transform.py's recursive nested serialization: a value, a
`KeyError` on a node id absent from `G.nodes`, or exhaustion of the modelled
recursion-depth fuel (the Python recursion has no such bound; running out of
every finite fuel models non-termination). -/
inductive NestOut where
  | val : J → NestOut
  | keyErr : NestOut
  | noFuel : NestOut
deriving Repr

/-- Sequentially collect child serializations, propagating the first
non-value outcome exactly as the first raised exception would propagate. -/
def collectN : List NestOut → List J ⊕ NestOut
  | [] => .inl []
  | .val j :: rest =>
    match collectN rest with
    | .inl js => .inl (j :: js)
    | .inr e => .inr e
  | .keyErr :: _ => .inr .keyErr
  | .noFuel :: _ => .inr .noFuel

/-- `recurse` of transform.py's `graph_to_nested_json` (lines 36–46), with
explicit fuel bounding the recursion depth. -/
def recurseT (G : DiGraph) : Nat → Int → NestOut
  | 0, _ => .noFuel
  | f + 1, node =>
    match G.nodes.lookup node with
    | none => .keyErr
    | some attrs =>
      match collectN ((successors G node).map (recurseT G f)) with
      | .inr e => e
      | .inl js =>
        .val (J.obj (("id", J.num node) :: attrFields attrs ++
          [("subareas", J.arr js)]))

/-- `graph_to_nested_json` (transform.py lines 8–46) with explicit fuel. -/
def graph_to_nested_json (G : DiGraph) (root_id : Int) (fuel : Nat) : NestOut :=
  recurseT G fuel root_id

/-- Outcome of adminextract.py's variant of the nested serialization, whose
`recurse` may also return Python `None` (`val none`) and may raise
`TypeError`/`ValueError` from `int(node_data.get("admin_level", 0))`. -/
inductive NestOutA where
  | val : Option J → NestOutA
  | err : NestOutA
  | noFuel : NestOutA
deriving Repr

/-- Sequential collection of child results for the adminextract variant. -/
def collectA : List NestOutA → List (Option J) ⊕ NestOutA
  | [] => .inl []
  | .val j :: rest =>
    match collectA rest with
    | .inl js => .inl (j :: js)
    | .inr e => .inr e
  | .err :: _ => .inr .err
  | .noFuel :: _ => .inr .noFuel

/-- `recurse` of adminextract.py's `graph_to_nested_json` (lines 110–153):
parses every visited node's level, truncates below `stop_level` (returning a
dict without a `subareas` key), filters by `only_level` (returning `None`),
and omits the `subareas` key on nodes left without children. -/
def recurseA (G : DiGraph) (stop_level only_level : Option Int) :
    Nat → Int → NestOutA
  | 0, _ => .noFuel
  | f + 1, node =>
    match G.nodes.lookup node with
    | none => .err
    | some attrs =>
      match getAdminDefault0 attrs with
      | none => .err
      | some node_level =>
        if (match stop_level with
            | some sl => decide (sl ≤ node_level)
            | none => false) then
          .val (some (J.obj (("id", J.num node) :: attrFields attrs)))
        else if (match only_level with
            | some ol => decide (node_level ≠ ol)
            | none => false) then
          .val none
        else
          match collectA ((successors G node).map
              (recurseA G stop_level only_level f)) with
          | .inr e => e
          | .inl js =>
            let children := js.filterMap id
            if children.isEmpty &&
                (match only_level with
                 | none => true
                 | some ol => decide (node_level = ol)) then
              .val (some (J.obj (("id", J.num node) :: attrFields attrs)))
            else
              .val (some (J.obj (("id", J.num node) :: attrFields attrs ++
                [("subareas", J.arr children)])))

/-- adminextract.py's `graph_to_nested_json` (lines 110–153) with fuel. -/
def graph_to_nested_json_adminextract (G : DiGraph) (root_id : Int)
    (stop_level only_level : Option Int) (fuel : Nat) : NestOutA :=
  recurseA G stop_level only_level fuel root_id

/-! ### State-threaded serializers

Every access the serializers make to the graph object is modelled as an
operation that returns its result together with the (possibly updated)
graph, the same shape `remove_node` would have; the serializers thread that
state, so whether they mutate the graph is a theorem, not a definition. -/

/-- `G.nodes[n]` as a stateful access. -/
def lookupSt (G : DiGraph) (n : Int) : Option (Option NodeData) × DiGraph :=
  (G.nodes.lookup n, G)

/-- `G.successors(n)` as a stateful access. -/
def successorsSt (G : DiGraph) (n : Int) : List Int × DiGraph :=
  (successors G n, G)

/-- `G.nodes(data=True)` as a stateful access. -/
def nodesSt (G : DiGraph) : List (Int × Option NodeData) × DiGraph :=
  (G.nodes, G)

mutual
/-- transform.py's `recurse`, threading the graph object through every
access. -/
def recurseTSt : Nat → Int → DiGraph → NestOut × DiGraph
  | 0, _, G => (.noFuel, G)
  | f + 1, node, G =>
    match lookupSt G node with
    | (none, G1) => (.keyErr, G1)
    | (some attrs, G1) =>
      let sc := successorsSt G1 node
      let rs := recurseListSt f sc.1 sc.2
      match collectN rs.1 with
      | .inr e => (e, rs.2)
      | .inl js =>
        (.val (J.obj (("id", J.num node) :: attrFields attrs ++
          [("subareas", J.arr js)])), rs.2)
termination_by f _ _ => (f, 0)

/-- The child list comprehension of transform.py's `recurse`, threading the
graph object left to right. -/
def recurseListSt : Nat → List Int → DiGraph → List NestOut × DiGraph
  | _, [], G => ([], G)
  | f, c :: rest, G =>
    let r := recurseTSt f c G
    let rs := recurseListSt f rest r.2
    (r.1 :: rs.1, rs.2)
termination_by f l _ => (f, l.length + 1)
end

/-- `graph_to_plain_json`, threading the graph object through its one read
of `G.nodes(data=True)`. -/
def graph_to_plain_json_st (G : DiGraph) (admin_level : Option Int) :
    Option J × DiGraph :=
  let ns := nodesSt G
  (match admin_level with
   | none => some (J.obj [("nodes", J.arr (ns.1.map plainNodeJson))])
   | some lvl =>
     match plainFiltered lvl ns.1 with
     | none => none
     | some js => some (J.obj [("nodes", J.arr js)]), ns.2)

/-! ### Reachability, stated relationally -/

/-- `Reach G a b`: `b` is reachable from `a` along `G.edges`. -/
inductive Reach (G : DiGraph) : Int → Int → Prop
  | refl (a : Int) : Reach G a a
  | step {a b c : Int} : Reach G a b → (b, c) ∈ G.edges → Reach G a c

/-- No edge leaving a node reachable from `root` closes a cycle: the
executable form of "the subgraph reachable from `root` is acyclic". -/
def noReachCycle (G : DiGraph) (root : Int) : Prop :=
  ∀ e ∈ G.edges, e.1 ∈ reachList G root → e.1 ∉ reachList G e.2

instance (G : DiGraph) (root : Int) : Decidable (noReachCycle G root) :=
  List.decidableBAll _ G.edges

/-- Every node id reachable from `root` is a node of the graph (true of
every graph networkx builds, since edges only connect existing nodes). -/
def reachWellFormed (G : DiGraph) (root : Int) : Prop :=
  ∀ x ∈ reachList G root, x ∈ nodeIds G

instance (G : DiGraph) (root : Int) : Decidable (reachWellFormed G root) :=
  List.decidableBAll _ (reachList G root)

/-! ### Invariant predicates for the amended build-graph claim -/

/-- Every edge of `G` originates in an administrative relation of
`relation_dict` that has a `subarea` member referencing the edge's target,
itself a key of `relation_dict` (the target's own tags are unchecked). -/
def edgeInv (relation_dict : List (Int × Relation)) (G : DiGraph) : Prop :=
  ∀ e ∈ G.edges, ∃ r, (e.1, r) ∈ relation_dict ∧
    r.tags.lookup "boundary" = some "administrative" ∧
    (∃ m ∈ r.members, m.role = "subarea" ∧ m.ref = e.2) ∧
    e.2 ∈ relation_dict.map Prod.fst

/-- Every node of `G` either came from an administrative relation or was
created implicitly as the target of some edge of `G`. -/
def nodeInv (relation_dict : List (Int × Relation)) (G : DiGraph) : Prop :=
  ∀ x ∈ G.nodes,
    (∃ r, (x.1, r) ∈ relation_dict ∧
      r.tags.lookup "boundary" = some "administrative") ∨
    ∃ a, (a, x.1) ∈ G.edges

/-! ### Reference definition for the amended C2 -/

/-- Modelled from the amended claim's words: level pruning that removes a
parseable-level node exactly when its level exceeds `stop_level` or differs
from `only_level` (both set). -/
def pruneByBothRef (G : DiGraph) (stop_level only_level : Int) : Option DiGraph :=
  match bothMarksRef stop_level only_level G.nodes with
  | none => none
  | some marked => some (marked.foldl remove_node G)
where
  /-- The marked-node list of the reference pruning. -/
  bothMarksRef (sl ol : Int) : List (Int × Option NodeData) → Option (List Int)
    | [] => some []
    | x :: rest =>
      match getAdmin x.2 with
      | none => bothMarksRef sl ol rest
      | some s =>
        match pyInt s with
        | none => none
        | some level =>
          match bothMarksRef sl ol rest with
          | none => none
          | some t =>
            some (if sl < level ∨ level ≠ ol then x.1 :: t else t)

/-! ### Concrete inputs -/

/-- Scenario A of the spec: a country (admin_level 2) with one subarea
province (admin_level 4), both administrative. -/
def scenarioA : List (Int × Relation) :=
  [ (1, ⟨[("boundary", "administrative"), ("admin_level", "2"), ("name", "Country")],
        [⟨"relation", 2, "subarea"⟩]⟩),
    (2, ⟨[("boundary", "administrative"), ("admin_level", "4"), ("name", "Province")], []⟩) ]

/-- An administrative relation whose `subarea` member references a relation
that is present in the mapping but not administrative. -/
def nonAdminTarget : List (Int × Relation) :=
  [ (1, ⟨[("boundary", "administrative"), ("admin_level", "2")],
        [⟨"relation", 2, "subarea"⟩]⟩),
    (2, ⟨[("type", "multipolygon")], []⟩) ]

/-- A single-node graph whose `admin_level` does not parse as an integer. -/
def badLevelGraph : DiGraph :=
  ⟨[(5, some ⟨some "x", some "Weird", none⟩)], []⟩

/-- A graph with one parseable node at level 3 (and one node without a
level), used against the claim that `only_level` is ignored. -/
def level3Graph : DiGraph :=
  ⟨[(7, some ⟨some "3", some "County", none⟩), (8, none)], []⟩

/-- Two nodes tied at the minimum admin level 2. -/
def tieGraph : DiGraph :=
  ⟨[(1, some ⟨some "2", none, none⟩), (2, some ⟨some "2", none, none⟩)], [] ⟩

/-- A graph in which no node has a parseable admin level. -/
def noLevelGraph : DiGraph :=
  ⟨[(1, some ⟨some "x", none, none⟩), (2, some ⟨none, some "A", none⟩), (3, none)], []⟩

/-- A two-node directed cycle. -/
def cycGraph : DiGraph := ⟨[(1, none), (2, none)], [(1, 2), (2, 1)]⟩

end AdminExtract

section Scratch
open AdminExtract

example : nodeIds (build_graph scenarioA) = [1, 2] := by decide
example : (build_graph scenarioA).edges = [(1, 2)] := by decide

example : find_root_node_id (build_graph scenarioA) "auto" [] = .found 1 := by decide
example : find_root_node_id (build_graph scenarioA) "highest" ["9"] = .found 1 := by decide
example :
    find_root_node_id
      ⟨[(1, some ⟨some "2", none, none⟩), (2, some ⟨some "2", none, none⟩)], []⟩
      "auto" ["x", "7", "2"] = .found 2 := by decide

example :
    graph_to_nested_json (build_graph scenarioA) 1 3 =
      .val (J.obj
        [("id", J.num 1), ("admin_level", J.str "2"), ("name", J.str "Country"),
         ("ref", J.null),
         ("subareas", J.arr
           [J.obj [("id", J.num 2), ("admin_level", J.str "4"),
             ("name", J.str "Province"), ("ref", J.null),
             ("subareas", J.arr [])]])]) := by rfl

example :
    (prune_graph_to_level (build_graph scenarioA) none (some 4)).2 =
      some ⟨[(2, some ⟨some "4", some "Province", none⟩)], []⟩ := by decide

example :
    prune_graph_to_root ⟨[(1, none), (2, none), (3, none)], [(1, 2), (3, 1)]⟩ 1 =
      some ⟨[(1, none), (2, none)], [(1, 2)]⟩ := by decide

end Scratch

namespace AdminExtract

/-! ### Reachability lemmas -/

theorem Reach.trans {G : DiGraph} {a b c : Int} (h1 : Reach G a b)
    (h2 : Reach G b c) : Reach G a c := by
  induction h2 with
  | refl => exact h1
  | step _ e ih => exact .step ih e

theorem subset_stepR (E : List (Int × Int)) (acc : List Int) :
    acc ⊆ stepR E acc :=
  List.subset_append_left _ _

theorem mem_stepR {E : List (Int × Int)} {acc : List Int} {x : Int} :
    x ∈ stepR E acc ↔
      x ∈ acc ∨ ∃ e ∈ E, e.1 ∈ acc ∧ e.2 ∉ acc ∧ e.2 = x := by
  simp only [stepR, List.mem_append, List.mem_dedup, List.mem_map,
    List.mem_filter, Bool.and_eq_true, decide_eq_true_eq]
  constructor
  · rintro (h | ⟨e, ⟨he, h1, h2⟩, rfl⟩)
    · exact Or.inl h
    · exact Or.inr ⟨e, he, h1, h2, rfl⟩
  · rintro (h | ⟨e, he, h1, h2, rfl⟩)
    · exact Or.inl h
    · exact Or.inr ⟨e, ⟨he, h1, h2⟩, rfl⟩

theorem stepR_nodup {E : List (Int × Int)} {acc : List Int}
    (h : acc.Nodup) : (stepR E acc).Nodup := by
  refine List.Nodup.append h (List.nodup_dedup _) ?_
  intro x hx hx'
  rcases List.mem_dedup.mp hx' with hmem
  rcases List.mem_map.mp hmem with ⟨e, hef, rfl⟩
  rcases List.mem_filter.mp hef with ⟨-, hcond⟩
  simp only [Bool.and_eq_true, decide_eq_true_eq] at hcond
  exact hcond.2 hx

theorem stepR_subset_targets {E : List (Int × Int)} {acc l : List Int}
    (hacc : acc ⊆ l) (ht : E.map Prod.snd ⊆ l) : stepR E acc ⊆ l := by
  intro x hx
  rcases mem_stepR.mp hx with h | ⟨e, he, -, -, rfl⟩
  · exact hacc h
  · exact ht (List.mem_map.mpr ⟨e, he, rfl⟩)

theorem stepR_eq_iff {E : List (Int × Int)} {acc : List Int} :
    stepR E acc = acc ↔ ∀ e ∈ E, e.1 ∈ acc → e.2 ∈ acc := by
  constructor
  · intro h e he h1
    by_contra h2
    have hx : e.2 ∈ stepR E acc := by
      exact mem_stepR.mpr (Or.inr ⟨e, he, h1, h2, rfl⟩)
    rw [h] at hx
    exact h2 hx
  · intro h
    have hnil : (E.filter (fun e => decide (e.1 ∈ acc) && decide (e.2 ∉ acc))) = [] := by
      rw [List.filter_eq_nil_iff]
      intro e he
      simp only [Bool.and_eq_true, decide_eq_true_eq, not_and, not_not]
      exact fun h1 => h e he h1
    unfold stepR
    rw [hnil]
    simp

theorem length_lt_stepR {E : List (Int × Int)} {acc : List Int}
    (h : stepR E acc ≠ acc) : acc.length < (stepR E acc).length := by
  by_cases hnil :
      ((E.filter (fun e => decide (e.1 ∈ acc) && decide (e.2 ∉ acc))).map
        Prod.snd).dedup = []
  · exfalso
    apply h
    unfold stepR
    rw [hnil, List.append_nil]
  · have hpos := List.length_pos.mpr hnil
    have hlen : (stepR E acc).length = acc.length +
        ((E.filter (fun e => decide (e.1 ∈ acc) && decide (e.2 ∉ acc))).map
          Prod.snd).dedup.length := by
      unfold stepR
      rw [List.length_append]
    omega

theorem reachGo_succ (E : List (Int × Int)) (f : Nat) (acc : List Int) :
    reachGo E (f + 1) acc = stepR E (reachGo E f acc) := by
  induction f generalizing acc with
  | zero => rfl
  | succ g ih =>
    show reachGo E (g + 1) (stepR E acc) = _
    rw [ih (stepR E acc)]
    rfl

theorem subset_reachGo (E : List (Int × Int)) (f : Nat) (acc : List Int) :
    acc ⊆ reachGo E f acc := by
  induction f generalizing acc with
  | zero => exact fun x h => h
  | succ g ih =>
    exact fun x h => ih (stepR E acc) (subset_stepR E acc h)

theorem reachGo_nodup {E : List (Int × Int)} {acc : List Int} (f : Nat)
    (h : acc.Nodup) : (reachGo E f acc).Nodup := by
  induction f generalizing acc with
  | zero => exact h
  | succ g ih => exact ih (stepR_nodup h)

theorem reachGo_subset_targets {E : List (Int × Int)} {acc l : List Int}
    (f : Nat) (hacc : acc ⊆ l) (ht : E.map Prod.snd ⊆ l) :
    reachGo E f acc ⊆ l := by
  induction f generalizing acc with
  | zero => exact hacc
  | succ g ih => exact ih (stepR_subset_targets hacc ht)

theorem reachGo_fix {E : List (Int × Int)} {acc : List Int}
    (h : stepR E acc = acc) (f : Nat) : reachGo E f acc = acc := by
  induction f with
  | zero => rfl
  | succ g ih => rw [reachGo_succ, ih, h]

theorem reachGo_add (E : List (Int × Int)) (a b : Nat) (acc : List Int) :
    reachGo E (a + b) acc = reachGo E b (reachGo E a acc) := by
  induction a generalizing acc with
  | zero =>
    rw [Nat.zero_add]
    rfl
  | succ g ih =>
    have h1 : g + 1 + b = (g + b) + 1 := by omega
    calc reachGo E (g + 1 + b) acc = reachGo E ((g + b) + 1) acc := by rw [h1]
      _ = reachGo E (g + b) (stepR E acc) := rfl
      _ = reachGo E b (reachGo E g (stepR E acc)) := ih (stepR E acc)
      _ = reachGo E b (reachGo E (g + 1) acc) := rfl

theorem reachGo_growth {E : List (Int × Int)} {acc : List Int} (f : Nat)
    (h : ∀ j < f, stepR E (reachGo E j acc) ≠ reachGo E j acc) :
    acc.length + f ≤ (reachGo E f acc).length := by
  induction f with
  | zero => exact Nat.le_of_eq rfl
  | succ g ih =>
    have hg := ih (fun j hj => h j (Nat.lt_succ_of_lt hj))
    have hlt : (reachGo E g acc).length < (stepR E (reachGo E g acc)).length :=
      length_lt_stepR (h g (Nat.lt_succ_self g))
    rw [reachGo_succ]
    omega

theorem length_le_of_nodup_subset {l m : List Int} (h : l.Nodup)
    (hs : l ⊆ m) : l.length ≤ m.length := by
  calc l.length = l.toFinset.card := (List.toFinset_card_of_nodup h).symm
    _ ≤ m.toFinset.card := Finset.card_le_card (fun x hx => by
        simp only [List.mem_toFinset] at hx ⊢; exact hs hx)
    _ ≤ m.length := m.toFinset_card_le

/-- Saturating for `G.edges.length` rounds reaches the fixed point. -/
theorem stepR_reachList (G : DiGraph) (root : Int) :
    stepR G.edges (reachList G root) = reachList G root := by
  set E := G.edges with hE
  set L := E.length with hL
  by_contra hne
  by_cases hfix : ∃ j, j < L ∧ stepR E (reachGo E j [root]) = reachGo E j [root]
  · rcases hfix with ⟨j, hj, hfj⟩
    have : reachList G root = reachGo E j [root] := by
      show reachGo E L [root] = _
      have h1 : L = j + (L - j) := by omega
      rw [h1, reachGo_add, reachGo_fix hfj]
    rw [this] at hne
    exact hne hfj
  · push_neg at hfix
    have hall : ∀ j < L + 1, stepR E (reachGo E j [root]) ≠ reachGo E j [root] := by
      intro j hj
      rcases Nat.lt_or_ge j L with h | h
      · exact hfix j h
      · have : j = L := by omega
        subst this
        exact hne
    have hgrow := reachGo_growth (L + 1) hall
    have hnodup : (reachGo E (L + 1) [root]).Nodup :=
      reachGo_nodup (L + 1) (List.nodup_singleton root)
    have hsub : reachGo E (L + 1) [root] ⊆ root :: E.map Prod.snd := by
      refine reachGo_subset_targets (L + 1) ?_ ?_
      · intro x hx
        rw [List.mem_singleton] at hx
        subst hx
        exact List.mem_cons_self _ _
      · exact fun x hx => List.mem_cons_of_mem _ hx
    have hlen := length_le_of_nodup_subset hnodup hsub
    simp only [List.length_cons, List.length_map] at hlen
    simp only [List.length_singleton] at hgrow
    omega

theorem root_mem_reachList (G : DiGraph) (root : Int) :
    root ∈ reachList G root :=
  subset_reachGo _ _ _ (List.mem_singleton_self root)

theorem reachList_closed {G : DiGraph} {root : Int} {e : Int × Int}
    (he : e ∈ G.edges) (h1 : e.1 ∈ reachList G root) :
    e.2 ∈ reachList G root :=
  (stepR_eq_iff.mp (stepR_reachList G root)) e he h1

theorem reachList_sound {G : DiGraph} {root x : Int}
    (h : x ∈ reachList G root) : Reach G root x := by
  have main : ∀ f acc, (∀ y ∈ acc, Reach G root y) →
      ∀ y ∈ reachGo G.edges f acc, Reach G root y := by
    intro f
    induction f with
    | zero => exact fun acc h y hy => h y hy
    | succ g ih =>
      intro acc hacc y hy
      refine ih (stepR G.edges acc) ?_ y hy
      intro z hz
      rcases mem_stepR.mp hz with h | ⟨e, he, h1, -, rfl⟩
      · exact hacc z h
      · exact .step (hacc e.1 h1) he
  refine main _ [root] ?_ x h
  intro y hy
  rw [List.mem_singleton] at hy
  rw [hy]
  exact .refl root

theorem reachList_complete {G : DiGraph} {root x : Int}
    (h : Reach G root x) : x ∈ reachList G root := by
  induction h with
  | refl => exact root_mem_reachList G root
  | step _ e ih => exact reachList_closed e ih

theorem mem_reachList_iff {G : DiGraph} {root x : Int} :
    x ∈ reachList G root ↔ Reach G root x :=
  ⟨reachList_sound, reachList_complete⟩

end AdminExtract

namespace AdminExtract

/-! ### Characterizing the prune-to-root removal loop -/

theorem pruneCond_erase {a n : Int} {R rest : List Int} (hn : n ∉ R) :
    ((a ∈ R ∨ a ∉ rest) ∧ a ≠ n) ↔ (a ∈ R ∨ a ∉ n :: rest) := by
  simp only [List.mem_cons, not_or]
  constructor
  · rintro ⟨h | h, hne⟩
    · exact Or.inl h
    · exact Or.inr ⟨hne, h⟩
  · rintro (h | ⟨hne, h⟩)
    · exact ⟨Or.inl h, fun hx => hn (hx ▸ h)⟩
    · exact ⟨Or.inr h, hne⟩

theorem pruneCond_keep {a n : Int} {R rest : List Int} (hn : n ∈ R) :
    (a ∈ R ∨ a ∉ rest) ↔ (a ∈ R ∨ a ∉ n :: rest) := by
  simp only [List.mem_cons, not_or]
  constructor
  · rintro (h | h)
    · exact Or.inl h
    · by_cases hx : a = n
      · exact Or.inl (hx ▸ hn)
      · exact Or.inr ⟨hx, h⟩
  · rintro (h | ⟨-, h⟩)
    · exact Or.inl h
    · exact Or.inr h

theorem pruneLoop_char (R : List Int) (L : List Int) (H : DiGraph) :
    L.foldl (fun H n => if n ∈ R then H else remove_node H n) H =
      ⟨H.nodes.filter (fun x => decide (x.1 ∈ R ∨ x.1 ∉ L)),
       H.edges.filter (fun e =>
         decide (e.1 ∈ R ∨ e.1 ∉ L) && decide (e.2 ∈ R ∨ e.2 ∉ L))⟩ := by
  induction L generalizing H with
  | nil =>
    cases H with
    | mk ns es =>
      simp only [List.foldl_nil, DiGraph.mk.injEq]
      constructor
      · refine (List.filter_eq_self.mpr ?_).symm
        intro a _
        simp
      · refine (List.filter_eq_self.mpr ?_).symm
        intro a _
        simp
  | cons n rest ih =>
    rw [List.foldl_cons]
    by_cases hn : n ∈ R
    · rw [if_pos hn, ih H]
      simp only [DiGraph.mk.injEq]
      constructor
      · refine List.filter_congr ?_
        intro x _
        rw [Bool.eq_iff_iff]
        simp only [decide_eq_true_eq]
        exact pruneCond_keep hn
      · refine List.filter_congr ?_
        intro e _
        rw [Bool.eq_iff_iff]
        simp only [Bool.and_eq_true, decide_eq_true_eq]
        exact and_congr (pruneCond_keep hn) (pruneCond_keep hn)
    · rw [if_neg hn, ih (remove_node H n)]
      simp only [remove_node, DiGraph.mk.injEq]
      constructor
      · rw [List.filter_filter]
        refine List.filter_congr ?_
        intro x _
        rw [Bool.eq_iff_iff]
        simp only [Bool.and_eq_true, decide_eq_true_eq]
        exact pruneCond_erase hn
      · rw [List.filter_filter]
        refine List.filter_congr ?_
        intro e _
        rw [Bool.eq_iff_iff]
        simp only [Bool.and_eq_true, decide_eq_true_eq]
        constructor
        · rintro ⟨⟨h1, h2⟩, hne1, hne2⟩
          exact ⟨(pruneCond_erase hn).mp ⟨h1, hne1⟩,
            (pruneCond_erase hn).mp ⟨h2, hne2⟩⟩
        · rintro ⟨h1, h2⟩
          obtain ⟨h1a, h1b⟩ := (pruneCond_erase hn).mpr h1
          obtain ⟨h2a, h2b⟩ := (pruneCond_erase hn).mpr h2
          exact ⟨⟨h1a, h2a⟩, h1b, h2b⟩

end AdminExtract

namespace AdminExtract

theorem prune_root_char (G : DiGraph) (root : Int) (h : root ∈ nodeIds G) :
    prune_graph_to_root G root =
      some ⟨G.nodes.filter (fun x =>
              decide (x.1 ∈ reachList G root ∨ x.1 ∉ nodeIds G)),
            G.edges.filter (fun e =>
              decide (e.1 ∈ reachList G root ∨ e.1 ∉ nodeIds G) &&
              decide (e.2 ∈ reachList G root ∨ e.2 ∉ nodeIds G))⟩ := by
  unfold prune_graph_to_root
  rw [if_pos h]
  exact congrArg some (pruneLoop_char _ _ _)

theorem reach_transfer {G G' : DiGraph} {root : Int}
    (hG' : G'.edges = G.edges.filter (fun e =>
      decide (e.1 ∈ reachList G root ∨ e.1 ∉ nodeIds G) &&
      decide (e.2 ∈ reachList G root ∨ e.2 ∉ nodeIds G)))
    {x : Int} (h : Reach G root x) : Reach G' root x := by
  induction h with
  | refl => exact .refl root
  | step hr he ih =>
    refine .step ih ?_
    rw [hG']
    refine List.mem_filter.mpr ⟨he, ?_⟩
    have ha := reachList_complete hr
    have hb := reachList_complete (hr.step he)
    simp [ha, hb]

end AdminExtract

namespace AdminExtract

/-- C7: Prune-to-root is idempotent: whenever `prune_graph_to_root G root_id`
succeeds (i.e. `root_id` is a node of `G`) and returns `G₂`, pruning `G₂`
again with the same `root_id` returns `G₂` itself — the same node list, edge
list and attributes. -/
theorem claim_C7_prune_root_idempotent (G G₂ : DiGraph) (root : Int)
    (h : prune_graph_to_root G root = some G₂) :
    prune_graph_to_root G₂ root = some G₂ := by
  have hroot : root ∈ nodeIds G := by
    by_contra hc
    unfold prune_graph_to_root at h
    rw [if_neg hc] at h
    exact Option.noConfusion h
  have hchar := prune_root_char G root hroot
  rw [h] at hchar
  have hG2 := Option.some.inj hchar
  have hGnodes : G₂.nodes = G.nodes.filter (fun x =>
      decide (x.1 ∈ reachList G root ∨ x.1 ∉ nodeIds G)) := by
    rw [hG2]
  have hGedges : G₂.edges = G.edges.filter (fun e =>
      decide (e.1 ∈ reachList G root ∨ e.1 ∉ nodeIds G) &&
      decide (e.2 ∈ reachList G root ∨ e.2 ∉ nodeIds G)) := by
    rw [hG2]
  have hids : nodeIds G₂ ⊆ nodeIds G := by
    intro n hn
    rcases List.mem_map.mp hn with ⟨x, hx, rfl⟩
    rw [hGnodes] at hx
    exact List.mem_map.mpr ⟨x, (List.mem_filter.mp hx).1, rfl⟩
  have hroot2 : root ∈ nodeIds G₂ := by
    rcases List.mem_map.mp hroot with ⟨x, hx, hxe⟩
    refine List.mem_map.mpr ⟨x, ?_, hxe⟩
    rw [hGnodes]
    refine List.mem_filter.mpr ⟨hx, ?_⟩
    have hxr : x.1 ∈ reachList G root := hxe ▸ root_mem_reachList G root
    simp [hxr]
  have hnode_R : ∀ x ∈ G₂.nodes, x.1 ∈ reachList G root := by
    intro x hx
    rw [hGnodes] at hx
    obtain ⟨hxG, hcond⟩ := List.mem_filter.mp hx
    simp only [decide_eq_true_eq] at hcond
    rcases hcond with h' | h'
    · exact h'
    · exact absurd (List.mem_map.mpr ⟨x, hxG, rfl⟩) h'
  have htrans : ∀ n ∈ nodeIds G₂, n ∈ reachList G₂ root := by
    intro n hn
    rcases List.mem_map.mp hn with ⟨x, hx, rfl⟩
    exact reachList_complete (reach_transfer hGedges (reachList_sound (hnode_R x hx)))
  rw [prune_root_char G₂ root hroot2]
  refine congrArg some ?_
  have hnodes_eq : G₂.nodes.filter (fun x =>
      decide (x.1 ∈ reachList G₂ root ∨ x.1 ∉ nodeIds G₂)) = G₂.nodes := by
    refine List.filter_eq_self.mpr ?_
    intro x hx
    have : x.1 ∈ reachList G₂ root :=
      htrans x.1 (List.mem_map.mpr ⟨x, hx, rfl⟩)
    simp [this]
  have hedges_eq : G₂.edges.filter (fun e =>
      decide (e.1 ∈ reachList G₂ root ∨ e.1 ∉ nodeIds G₂) &&
      decide (e.2 ∈ reachList G₂ root ∨ e.2 ∉ nodeIds G₂)) = G₂.edges := by
    refine List.filter_eq_self.mpr ?_
    intro e he
    have hcond : ∀ a : Int, (a ∈ reachList G root ∨ a ∉ nodeIds G) →
        (a ∈ reachList G₂ root ∨ a ∉ nodeIds G₂) := by
      intro a ha
      rcases ha with ha | ha
      · exact Or.inl (reachList_complete (reach_transfer hGedges (reachList_sound ha)))
      · exact Or.inr (fun hc => ha (hids hc))
    rw [hGedges] at he
    obtain ⟨-, hc⟩ := List.mem_filter.mp he
    simp only [Bool.and_eq_true, decide_eq_true_eq] at hc
    simp only [Bool.and_eq_true, decide_eq_true_eq]
    exact ⟨hcond e.1 hc.1, hcond e.2 hc.2⟩
  calc (⟨G₂.nodes.filter _, G₂.edges.filter _⟩ : DiGraph)
      = ⟨G₂.nodes, G₂.edges⟩ := by rw [hnodes_eq, hedges_eq]
    _ = G₂ := rfl

end AdminExtract

namespace AdminExtract

/-- C7's witness input: pruning `1 → 2` plus an unreachable `3 → 1`. -/
theorem claim_C7_witness :
    prune_graph_to_root ⟨[(1, none), (2, none), (3, none)], [(1, 2), (3, 1)]⟩ 1 =
        some ⟨[(1, none), (2, none)], [(1, 2)]⟩ ∧
      prune_graph_to_root ⟨[(1, none), (2, none)], [(1, 2)]⟩ 1 =
        some ⟨[(1, none), (2, none)], [(1, 2)]⟩ :=
  ⟨by decide,
    claim_C7_prune_root_idempotent
      ⟨[(1, none), (2, none), (3, none)], [(1, 2), (3, 1)]⟩
      ⟨[(1, none), (2, none)], [(1, 2)]⟩ 1 (by decide)⟩

/-! ### Characterizing the root-candidate scan -/

theorem rootScanStep_skip {st : Option Int × List (Int × Option NodeData)}
    {x : Int × Option NodeData} (hx : parsedLevel x.2 = none) :
    rootScanStep st x = st := by
  unfold rootScanStep
  rw [hx]

theorem rootScanStep_first {st : Option Int × List (Int × Option NodeData)}
    {x : Int × Option NodeData} {lv : Int} (hx : parsedLevel x.2 = some lv)
    (hst : st.1 = none) : rootScanStep st x = (some lv, [x]) := by
  unfold rootScanStep
  rw [hx, hst]

theorem rootScanStep_lt {st : Option Int × List (Int × Option NodeData)}
    {x : Int × Option NodeData} {lv m : Int} (hx : parsedLevel x.2 = some lv)
    (hst : st.1 = some m) (h : lv < m) : rootScanStep st x = (some lv, [x]) := by
  unfold rootScanStep
  rw [hx, hst]
  show (if lv < m then (some lv, [x]) else if lv = m then (some m, st.2 ++ [x]) else st) =
    (some lv, [x])
  rw [if_pos h]

theorem rootScanStep_tie {st : Option Int × List (Int × Option NodeData)}
    {x : Int × Option NodeData} {m : Int} (hx : parsedLevel x.2 = some m)
    (hst : st.1 = some m) : rootScanStep st x = (some m, st.2 ++ [x]) := by
  unfold rootScanStep
  rw [hx, hst]
  show (if m < m then (some m, [x]) else if m = m then (some m, st.2 ++ [x]) else st) =
    (some m, st.2 ++ [x])
  rw [if_neg (lt_irrefl m), if_pos rfl]

theorem rootScanStep_gt {st : Option Int × List (Int × Option NodeData)}
    {x : Int × Option NodeData} {lv m : Int} (hx : parsedLevel x.2 = some lv)
    (hst : st.1 = some m) (h : m < lv) : rootScanStep st x = st := by
  unfold rootScanStep
  rw [hx, hst]
  show (if lv < m then (some lv, [x]) else if lv = m then (some m, st.2 ++ [x]) else st) = st
  rw [if_neg (by omega : ¬lv < m), if_neg (by omega : ¬lv = m)]

theorem rootScan_snoc (l : List (Int × Option NodeData))
    (x : Int × Option NodeData) :
    (l ++ [x]).foldl rootScanStep (none, []) =
      rootScanStep (l.foldl rootScanStep (none, [])) x := by
  rw [List.foldl_append]
  rfl

theorem rootScan_char (l : List (Int × Option NodeData)) :
    ((l.foldl rootScanStep (none, [])).1 = none →
      (∀ y ∈ l, parsedLevel y.2 = none) ∧
        (l.foldl rootScanStep (none, [])).2 = []) ∧
    (∀ m, (l.foldl rootScanStep (none, [])).1 = some m →
      (∃ y ∈ l, parsedLevel y.2 = some m) ∧
      (∀ y ∈ l, ∀ v, parsedLevel y.2 = some v → m ≤ v) ∧
      (l.foldl rootScanStep (none, [])).2 =
        l.filter (fun y => decide (parsedLevel y.2 = some m))) := by
  induction l using List.reverseRecOn with
  | nil =>
    constructor
    · intro _
      exact ⟨fun y hy => absurd hy (List.not_mem_nil y), rfl⟩
    · intro m hm
      exact absurd hm (by simp [List.foldl_nil])
  | append_singleton l x ih =>
    rw [rootScan_snoc]
    obtain ⟨ihnone, ihsome⟩ := ih
    rcases hx : parsedLevel x.2 with _ | lv
    · -- x is skipped
      rw [rootScanStep_skip hx]
      constructor
      · intro hnone
        obtain ⟨hall, hnil⟩ := ihnone hnone
        refine ⟨?_, hnil⟩
        intro y hy
        rcases List.mem_append.mp hy with h | h
        · exact hall y h
        · rw [List.mem_singleton.mp h]
          exact hx
      · intro m hm
        obtain ⟨hex, hmin, hcand⟩ := ihsome m hm
        refine ⟨?_, ?_, ?_⟩
        · obtain ⟨y, hy, hpy⟩ := hex
          exact ⟨y, List.mem_append_left _ hy, hpy⟩
        · intro y hy v hv
          rcases List.mem_append.mp hy with h | h
          · exact hmin y h v hv
          · rw [List.mem_singleton.mp h] at hv
            rw [hx] at hv
            exact absurd hv (Option.noConfusion)
        · rw [List.filter_append, hcand]
          have : [x].filter (fun y => decide (parsedLevel y.2 = some m)) = [] := by
            simp [hx]
          rw [this, List.append_nil]
    · -- x parses to lv
      rcases hst : (l.foldl rootScanStep (none, [])).1 with _ | m
      · -- first parseable node
        obtain ⟨hall, hnil⟩ := ihnone hst
        rw [rootScanStep_first hx hst]
        constructor
        · intro hm
          exact absurd hm (by simp)
        · intro m hm
          have hmlv : m = lv := by
            have := Option.some.inj hm
            omega
          subst hmlv
          refine ⟨⟨x, List.mem_append_right _ (List.mem_singleton_self x), hx⟩, ?_, ?_⟩
          · intro y hy v hv
            rcases List.mem_append.mp hy with h | h
            · rw [hall y h] at hv
              exact absurd hv (Option.noConfusion)
            · rw [List.mem_singleton.mp h] at hv
              rw [hx] at hv
              have := Option.some.inj hv
              omega
          · have h1 : l.filter (fun y => decide (parsedLevel y.2 = some m)) = [] := by
              rw [List.filter_eq_nil_iff]
              intro y hy
              simp [hall y hy]
            rw [List.filter_append, h1, List.nil_append]
            simp [hx]
      · obtain ⟨hex, hmin, hcand⟩ := ihsome m hst
        rcases lt_trichotomy lv m with hlt | heq | hgt
        · -- strictly smaller level: reset
          rw [rootScanStep_lt hx hst hlt]
          constructor
          · intro hm
            exact absurd hm (by simp)
          · intro m' hm'
            have hmlv : m' = lv := by
              have := Option.some.inj hm'
              omega
            subst hmlv
            refine ⟨⟨x, List.mem_append_right _ (List.mem_singleton_self x), hx⟩, ?_, ?_⟩
            · intro y hy v hv
              rcases List.mem_append.mp hy with h | h
              · have := hmin y h v hv
                omega
              · rw [List.mem_singleton.mp h] at hv
                rw [hx] at hv
                have := Option.some.inj hv
                omega
            · have h1 : l.filter (fun y => decide (parsedLevel y.2 = some m')) = [] := by
                rw [List.filter_eq_nil_iff]
                intro y hy
                simp only [decide_eq_true_eq]
                intro hpy
                have := hmin y hy m' hpy
                omega
              rw [List.filter_append, h1, List.nil_append]
              simp [hx]
        · -- tie: append
          subst heq
          rw [rootScanStep_tie hx hst]
          constructor
          · intro hm
            exact absurd hm (by simp)
          · intro m' hm'
            have hmlv : m' = lv := by
              have := Option.some.inj hm'
              omega
            subst hmlv
            refine ⟨?_, ?_, ?_⟩
            · obtain ⟨y, hy, hpy⟩ := hex
              exact ⟨y, List.mem_append_left _ hy, hpy⟩
            · intro y hy v hv
              rcases List.mem_append.mp hy with h | h
              · exact hmin y h v hv
              · rw [List.mem_singleton.mp h] at hv
                rw [hx] at hv
                have := Option.some.inj hv
                omega
            · rw [List.filter_append, hcand]
              simp [hx]
        · -- strictly larger: skipped
          rw [rootScanStep_gt hx hst hgt]
          constructor
          · intro hm
            rw [hst] at hm
            exact absurd hm (Option.noConfusion)
          · intro m' hm'
            rw [hst] at hm'
            have : m = m' := Option.some.inj hm'
            subst this
            refine ⟨?_, ?_, ?_⟩
            · obtain ⟨y, hy, hpy⟩ := hex
              exact ⟨y, List.mem_append_left _ hy, hpy⟩
            · intro y hy v hv
              rcases List.mem_append.mp hy with h | h
              · exact hmin y h v hv
              · rw [List.mem_singleton.mp h] at hv
                rw [hx] at hv
                have := Option.some.inj hv
                omega
            · rw [List.filter_append, hcand]
              have hxfail : [x].filter (fun y => decide (parsedLevel y.2 = some m)) = [] := by
                rw [List.filter_eq_nil_iff]
                intro y hy
                rw [List.mem_singleton.mp hy]
                simp only [decide_eq_true_eq, hx, Option.some.injEq]
                omega
              rw [hxfail, List.append_nil]

end AdminExtract

namespace AdminExtract

theorem root_candidates_eq (G : DiGraph) (m : Int)
    (hmin : ∀ y ∈ G.nodes, ∀ v, parsedLevel y.2 = some v → m ≤ v)
    (hex : ∃ y ∈ G.nodes, parsedLevel y.2 = some m) :
    root_candidates G =
      G.nodes.filter (fun y => decide (parsedLevel y.2 = some m)) := by
  obtain ⟨char_none, char_some⟩ := rootScan_char G.nodes
  unfold root_candidates
  rcases hst : (G.nodes.foldl rootScanStep (none, [])).1 with _ | m'
  · obtain ⟨hall, -⟩ := char_none hst
    obtain ⟨y, hy, hpy⟩ := hex
    rw [hall y hy] at hpy
    exact absurd hpy Option.noConfusion
  · obtain ⟨⟨y0, hy0, hpy0⟩, hmin', hcand⟩ := char_some m' hst
    have h1 : m ≤ m' := hmin y0 hy0 m' hpy0
    have h2 : m' ≤ m := by
      obtain ⟨y, hy, hpy⟩ := hex
      exact hmin' y hy m hpy
    have hmm : m' = m := le_antisymm h2 h1
    rw [hcand, hmm]

theorem root_candidates_nil (G : DiGraph)
    (h : ∀ y ∈ G.nodes, parsedLevel y.2 = none) : root_candidates G = [] := by
  obtain ⟨char_none, char_some⟩ := rootScan_char G.nodes
  unfold root_candidates
  rcases hst : (G.nodes.foldl rootScanStep (none, [])).1 with _ | m
  · exact (char_none hst).2
  · obtain ⟨⟨y, hy, hpy⟩, -, -⟩ := char_some m hst
    rw [h y hy] at hpy
    exact absurd hpy Option.noConfusion

theorem root_candidates_parseable (G : DiGraph) :
    ∀ x ∈ root_candidates G, ∃ v, parsedLevel x.2 = some v := by
  obtain ⟨char_none, char_some⟩ := rootScan_char G.nodes
  intro x hx
  unfold root_candidates at hx
  rcases hst : (G.nodes.foldl rootScanStep (none, [])).1 with _ | m
  · rw [(char_none hst).2] at hx
    exact absurd hx (List.not_mem_nil x)
  · obtain ⟨-, -, hcand⟩ := char_some m hst
    rw [hcand] at hx
    obtain ⟨-, hp⟩ := List.mem_filter.mp hx
    exact ⟨m, by simpa using hp⟩

theorem chooseLoop_found {ids : List Int} {inputs : List String} {x : Int}
    (h : chooseLoop ids inputs = .found x) :
    x ∈ ids ∧ ∃ s ∈ inputs, pyInt s = some x := by
  induction inputs with
  | nil => exact absurd h (by simp [chooseLoop])
  | cons s rest ih =>
    unfold chooseLoop at h
    rcases hp : pyInt s with _ | n
    · rw [hp] at h
      simp only [] at h
      obtain ⟨h1, s', hs', hp'⟩ := ih h
      exact ⟨h1, s', List.mem_cons_of_mem _ hs', hp'⟩
    · rw [hp] at h
      simp only [] at h
      by_cases hm : n ∈ ids
      · rw [if_pos hm] at h
        have hnx : n = x := RootOutcome.found.inj h
        subst hnx
        exact ⟨hm, s, List.mem_cons_self _ _, hp⟩
      · rw [if_neg hm] at h
        obtain ⟨h1, s', hs', hp'⟩ := ih h
        exact ⟨h1, s', List.mem_cons_of_mem _ hs', hp'⟩

theorem chooseLoop_skip {ids : List Int} {s : String} {rest : List String}
    (h : pyInt s = none ∨ ∀ n, pyInt s = some n → n ∉ ids) :
    chooseLoop ids (s :: rest) = chooseLoop ids rest := by
  show (match pyInt s with
    | some n => if n ∈ ids then RootOutcome.found n else chooseLoop ids rest
    | none => chooseLoop ids rest) = chooseLoop ids rest
  rcases hp : pyInt s with _ | n
  · rfl
  · simp only []
    rcases h with h' | h'
    · rw [hp] at h'
      exact absurd h' Option.noConfusion
    · rw [if_neg (h' n hp)]

end AdminExtract

namespace AdminExtract

/-- C4: if exactly one node attains the minimum parsed `admin_level` among
nodes with a parseable level, `find_root_node_id` under both `"auto"` and
`"highest"` returns that node's identifier for every state of the operator
input — in particular with no input at all, so no prompt is ever needed. -/
theorem claim_C4_unique_min_no_prompt (G : DiGraph) (m c : Int)
    (d : Option NodeData)
    (hmin : ∀ y ∈ G.nodes, ∀ v, parsedLevel y.2 = some v → m ≤ v)
    (huniq : G.nodes.filter (fun y => decide (parsedLevel y.2 = some m)) = [(c, d)]) :
    ∀ inputs, find_root_node_id G "auto" inputs = .found c ∧
      find_root_node_id G "highest" inputs = .found c := by
  have hmem : (c, d) ∈ G.nodes.filter (fun y => decide (parsedLevel y.2 = some m)) := by
    rw [huniq]
    exact List.mem_singleton_self _
  have hex : ∃ y ∈ G.nodes, parsedLevel y.2 = some m := by
    obtain ⟨h1, h2⟩ := List.mem_filter.mp hmem
    exact ⟨(c, d), h1, by simpa using h2⟩
  have hrc : root_candidates G = [(c, d)] :=
    (root_candidates_eq G m hmin hex).trans huniq
  intro inputs
  constructor
  · unfold find_root_node_id
    rw [if_neg (by decide : ¬("auto" : String) = "input"), hrc]
    rfl
  · unfold find_root_node_id
    rw [if_neg (by decide : ¬("highest" : String) = "input"), hrc]
    rfl

/-- C4's witness: scenario A, whose unique minimum-level node is relation 1
at level 2. -/
theorem claim_C4_witness :
    find_root_node_id (build_graph scenarioA) "auto" [] = .found 1 ∧
      find_root_node_id (build_graph scenarioA) "highest" [] = .found 1 :=
  claim_C4_unique_min_no_prompt (build_graph scenarioA) 2 1
    (some ⟨some "2", some "Country", none⟩) (by decide) (by decide) []

/-- C5: with several nodes tied at the minimum parsed level, the selector
never picks automatically: with no operator input it blocks at the prompt,
any returned id is one of the tied candidates and was typed by the operator,
and non-numeric input or a number outside the candidate list is skipped
(re-prompt), under both `"auto"` and `"highest"`. -/
theorem claim_C5_tie_needs_operator (G : DiGraph) (m : Int)
    (hmin : ∀ y ∈ G.nodes, ∀ v, parsedLevel y.2 = some v → m ≤ v)
    (hlen : 2 ≤ (G.nodes.filter (fun y => decide (parsedLevel y.2 = some m))).length) :
    (find_root_node_id G "auto" [] = .blocked ∧
      find_root_node_id G "highest" [] = .blocked) ∧
    (∀ inputs x,
      (find_root_node_id G "auto" inputs = .found x ∨
        find_root_node_id G "highest" inputs = .found x) →
      x ∈ (G.nodes.filter (fun y => decide (parsedLevel y.2 = some m))).map Prod.fst ∧
        ∃ s ∈ inputs, pyInt s = some x) ∧
    (∀ s rest,
      (pyInt s = none ∨ ∀ n, pyInt s = some n →
        n ∉ (G.nodes.filter (fun y => decide (parsedLevel y.2 = some m))).map Prod.fst) →
      find_root_node_id G "auto" (s :: rest) = find_root_node_id G "auto" rest ∧
        find_root_node_id G "highest" (s :: rest) = find_root_node_id G "highest" rest) := by
  have hex : ∃ y ∈ G.nodes, parsedLevel y.2 = some m := by
    rcases hfil : G.nodes.filter (fun y => decide (parsedLevel y.2 = some m)) with _ | ⟨y, t⟩
    · rw [hfil] at hlen
      simp at hlen
    · have hy : y ∈ G.nodes.filter (fun y => decide (parsedLevel y.2 = some m)) := by
        rw [hfil]
        exact List.mem_cons_self _ _
      obtain ⟨h1, h2⟩ := List.mem_filter.mp hy
      exact ⟨y, h1, by simpa using h2⟩
  have hrc := root_candidates_eq G m hmin hex
  have hfind : ∀ strat inputs, strat = "auto" ∨ strat = "highest" →
      find_root_node_id G strat inputs =
        chooseLoop ((G.nodes.filter
          (fun y => decide (parsedLevel y.2 = some m))).map Prod.fst) inputs := by
    intro strat inputs hstrat
    have hninput : ¬strat = "input" := by
      rcases hstrat with h | h <;> subst h <;> decide
    unfold find_root_node_id
    rw [if_neg hninput, hrc]
    have hne : ¬(G.nodes.filter
        (fun y => decide (parsedLevel y.2 = some m))).isEmpty = true := by
      rw [List.isEmpty_iff_length_eq_zero]
      omega
    rw [if_neg hne, if_pos (by omega :
      1 < (G.nodes.filter (fun y => decide (parsedLevel y.2 = some m))).length)]
  refine ⟨⟨?_, ?_⟩, ?_, ?_⟩
  · rw [hfind "auto" [] (Or.inl rfl)]
    rfl
  · rw [hfind "highest" [] (Or.inr rfl)]
    rfl
  · intro inputs x hx
    rcases hx with hx | hx
    · rw [hfind "auto" inputs (Or.inl rfl)] at hx
      exact chooseLoop_found hx
    · rw [hfind "highest" inputs (Or.inr rfl)] at hx
      exact chooseLoop_found hx
  · intro s rest hs
    constructor
    · rw [hfind "auto" (s :: rest) (Or.inl rfl), hfind "auto" rest (Or.inl rfl)]
      exact chooseLoop_skip hs
    · rw [hfind "highest" (s :: rest) (Or.inr rfl), hfind "highest" rest (Or.inr rfl)]
      exact chooseLoop_skip hs

/-- C5's witness: two level-2 nodes tied; no input blocks, and the value
returned is an operator-chosen tied id. -/
theorem claim_C5_witness :
    (find_root_node_id tieGraph "auto" [] = .blocked ∧
      find_root_node_id tieGraph "highest" [] = .blocked) ∧
    (2 : Int) ∈ (tieGraph.nodes.filter
      (fun y => decide (parsedLevel y.2 = some 2))).map Prod.fst ∧
    ∃ s ∈ ["x", "7", "2"], pyInt s = some 2 := by
  have h := claim_C5_tie_needs_operator tieGraph 2 (by decide) (by decide)
  refine ⟨h.1, ?_⟩
  exact h.2.1 ["x", "7", "2"] 2 (Or.inl (by decide))

/-- C6: with no parseable `admin_level` anywhere, strategy `"highest"`
raises the "no root found" `ValueError`, while `"auto"` falls back to
prompting (blocking when no input is given) and returns the entered number
when the first answer parses. -/
theorem claim_C6_no_parseable_level (G : DiGraph)
    (h : ∀ y ∈ G.nodes, parsedLevel y.2 = none) :
    (∀ inputs, find_root_node_id G "highest" inputs = .noRoot) ∧
    find_root_node_id G "auto" [] = .blocked ∧
    (∀ s rest n, pyInt s = some n →
      find_root_node_id G "auto" (s :: rest) = .found n) := by
  have hrc := root_candidates_nil G h
  refine ⟨?_, ?_, ?_⟩
  · intro inputs
    unfold find_root_node_id
    rw [if_neg (by decide : ¬("highest" : String) = "input"), hrc]
    rfl
  · unfold find_root_node_id
    rw [if_neg (by decide : ¬("auto" : String) = "input"), hrc]
    rfl
  · intro s rest n hn
    unfold find_root_node_id
    rw [if_neg (by decide : ¬("auto" : String) = "input"), hrc]
    show readInt (s :: rest) = .found n
    unfold readInt
    simp only []
    rw [hn]

/-- C6's witness: a graph with only unparseable/missing levels. -/
theorem claim_C6_witness :
    find_root_node_id noLevelGraph "highest" [] = .noRoot ∧
      find_root_node_id noLevelGraph "auto" [] = .blocked ∧
      find_root_node_id noLevelGraph "auto" ["42"] = .found 42 := by
  have h := claim_C6_no_parseable_level noLevelGraph (by decide)
  exact ⟨h.1 [], h.2.1, h.2.2 "42" [] 42 (by decide)⟩

end AdminExtract

namespace AdminExtract

theorem markOf_both (sl ol level : Int) :
    markOf (some sl) (some ol) level = decide (sl < level ∨ level ≠ ol) := by
  simp only [markOf]
  by_cases h : sl < level
  · rw [if_pos h]
    simp [h]
  · rw [if_neg h]
    simp [h]

theorem marks_eq_bothRef (sl ol : Int) (l : List (Int × Option NodeData)) :
    nodes_to_remove (some sl) (some ol) l =
      pruneByBothRef.bothMarksRef sl ol l := by
  induction l with
  | nil => rfl
  | cons x rest ih =>
    rcases hga : getAdmin x.2 with _ | s
    · simp only [nodes_to_remove, pruneByBothRef.bothMarksRef, hga]
      exact ih
    · rcases hpi : pyInt s with _ | level
      · simp only [nodes_to_remove, pruneByBothRef.bothMarksRef, hga, hpi]
      · simp only [nodes_to_remove, pruneByBothRef.bothMarksRef, hga, hpi, ih]
        rcases hbm : pruneByBothRef.bothMarksRef sl ol rest with _ | t
        · rfl
        · simp only []
          have hiff : (markOf (some sl) (some ol) level = true) ↔
              (sl < level ∨ level ≠ ol) := by
            rw [markOf_both]
            simp
          rw [if_congr hiff rfl rfl]

/-- C2 counterexample: on a graph with a single parseable node at level 3,
`stop_level = 4` together with `only_level = 2` removes the node (it passes
the stop check but fails the only check), whereas `stop_level = 4` alone
keeps it — so the combined result does **not** equal the stop-level-alone
result, contradicting "only_level is effectively ignored". -/
theorem claim_C2_counterexample :
    (prune_graph_to_level level3Graph (some 4) (some 2)).2 =
        some ⟨[(8, none)], []⟩ ∧
      (prune_graph_to_level level3Graph (some 4) none).2 = some level3Graph ∧
      (prune_graph_to_level level3Graph (some 4) (some 2)).2 ≠
        (prune_graph_to_level level3Graph (some 4) none).2 :=
  ⟨by decide, by decide, by decide⟩

/-- C2 amended: when both `stop_level` and `only_level` are set,
`prune_graph_to_level` emits the conflict diagnostic and continues, and the
result applies **both** conditions in `elif` order: a node with parseable
level is removed iff its level exceeds `stop_level` or differs from
`only_level` (`only_level` is not ignored; `stop_level`'s check merely runs
first). -/
theorem claim_C2_amended_both_filters (G : DiGraph) (sl ol : Int) :
    prune_graph_to_level G (some sl) (some ol) =
      ([conflictMsg], pruneByBothRef G sl ol) := by
  unfold prune_graph_to_level pruneByBothRef
  rw [marks_eq_bothRef sl ol G.nodes]
  rcases hbm : pruneByBothRef.bothMarksRef sl ol G.nodes with _ | marked <;>
    simp

/-- C3 counterexample: a node whose `admin_level` is the unparseable string
`"x"` makes `prune_graph_to_level` (with `stop_level` set) raise
`ValueError`, and makes `graph_to_plain_json` (with a level filter) raise as
well — the filtering operations do not silently exclude it. -/
theorem claim_C3_counterexample :
    (prune_graph_to_level badLevelGraph (some 4) none).2 = none ∧
      graph_to_plain_json badLevelGraph (some 4) = none :=
  ⟨by decide, rfl⟩

theorem nodes_to_remove_none_iff (sl ol : Option Int)
    (l : List (Int × Option NodeData)) :
    nodes_to_remove sl ol l = none ↔
      ∃ x ∈ l, ∃ s, getAdmin x.2 = some s ∧ pyInt s = none := by
  induction l with
  | nil => simp [nodes_to_remove]
  | cons x rest ih =>
    rcases hga : getAdmin x.2 with _ | s
    · simp only [nodes_to_remove, hga]
      rw [ih]
      constructor
      · rintro ⟨y, hy, hs⟩
        exact ⟨y, List.mem_cons_of_mem _ hy, hs⟩
      · rintro ⟨y, hy, s', hs', hp'⟩
        rcases List.mem_cons.mp hy with h | h
        · rw [h, hga] at hs'
          exact absurd hs' Option.noConfusion
        · exact ⟨y, h, s', hs', hp'⟩
    · rcases hpi : pyInt s with _ | level
      · simp only [nodes_to_remove, hga, hpi, true_iff]
        exact ⟨x, List.mem_cons_self _ _, s, hga, hpi⟩
      · simp only [nodes_to_remove, hga, hpi]
        rcases hrest : nodes_to_remove sl ol rest with _ | t
        · simp only [true_iff]
          obtain ⟨y, hy, s', hs', hp'⟩ := ih.mp hrest
          exact ⟨y, List.mem_cons_of_mem _ hy, s', hs', hp'⟩
        · simp only []
          constructor
          · intro hcontra
            exact absurd hcontra Option.noConfusion
          · rintro ⟨y, hy, s', hs', hp'⟩
            rcases List.mem_cons.mp hy with h | h
            · rw [h, hga] at hs'
              rw [Option.some.inj hs'] at hpi
              rw [hpi] at hp'
              exact absurd hp' Option.noConfusion
            · have hnone : nodes_to_remove sl ol rest = none :=
                ih.mpr ⟨y, h, s', hs', hp'⟩
              rw [hnone] at hrest
              exact absurd hrest Option.noConfusion

theorem plainFiltered_none_iff (lvl : Int) (l : List (Int × Option NodeData)) :
    plainFiltered lvl l = none ↔ ∃ x ∈ l, getAdminDefault0 x.2 = none := by
  induction l with
  | nil => simp [plainFiltered]
  | cons x rest ih =>
    rcases hga : getAdminDefault0 x.2 with _ | v
    · simp only [plainFiltered, hga, true_iff]
      exact ⟨x, List.mem_cons_self _ _, hga⟩
    · simp only [plainFiltered, hga]
      rcases hrest : plainFiltered lvl rest with _ | t
      · simp only [true_iff]
        obtain ⟨y, hy, hp'⟩ := ih.mp hrest
        exact ⟨y, List.mem_cons_of_mem _ hy, hp'⟩
      · simp only []
        constructor
        · intro hcontra
          exact absurd hcontra Option.noConfusion
        · rintro ⟨y, hy, hp'⟩
          rcases List.mem_cons.mp hy with h | h
          · rw [h, hga] at hp'
            exact absurd hp' Option.noConfusion
          · have hnone : plainFiltered lvl rest = none := ih.mpr ⟨y, h, hp'⟩
            rw [hnone] at hrest
            exact absurd hrest Option.noConfusion

/-- C3 amended: parse failures of `admin_level` are swallowed only by the
root-candidate scan (candidates always carry a parsed level); the filtering
operations raise instead: `prune_graph_to_level` fails exactly when some
node's `admin_level` is present but unparseable (whatever the level
arguments), and `graph_to_plain_json` with a filter fails exactly when some
node's attribute dict yields no integer (admin_level attribute `None` or
unparseable); with no filter it never fails. -/
theorem claim_C3_amended_filters_raise :
    (∀ (G : DiGraph) (sl ol : Option Int),
      (prune_graph_to_level G sl ol).2 = none ↔
        ∃ x ∈ G.nodes, ∃ s, getAdmin x.2 = some s ∧ pyInt s = none) ∧
    (∀ (G : DiGraph) (lvl : Int),
      graph_to_plain_json G (some lvl) = none ↔
        ∃ x ∈ G.nodes, getAdminDefault0 x.2 = none) ∧
    (∀ G : DiGraph, graph_to_plain_json G none ≠ none) ∧
    (∀ G : DiGraph, ∀ x ∈ root_candidates G, ∃ v, parsedLevel x.2 = some v) := by
  refine ⟨?_, ?_, ?_, root_candidates_parseable⟩
  · intro G sl ol
    rcases hm : nodes_to_remove sl ol G.nodes with _ | marked
    · simp only [prune_graph_to_level, hm, true_iff]
      exact (nodes_to_remove_none_iff sl ol G.nodes).mp hm
    · simp only [prune_graph_to_level, hm]
      constructor
      · intro hcontra
        exact absurd hcontra Option.noConfusion
      · intro hex
        have hnone := (nodes_to_remove_none_iff sl ol G.nodes).mpr hex
        rw [hnone] at hm
        exact absurd hm Option.noConfusion
  · intro G lvl
    rcases hp : plainFiltered lvl G.nodes with _ | js
    · simp only [graph_to_plain_json, hp, true_iff]
      exact (plainFiltered_none_iff lvl G.nodes).mp hp
    · simp only [graph_to_plain_json, hp]
      constructor
      · intro hcontra
        exact absurd hcontra Option.noConfusion
      · intro hex
        have hnone := (plainFiltered_none_iff lvl G.nodes).mpr hex
        rw [hnone] at hp
        exact absurd hp Option.noConfusion
  · intro G
    simp only [graph_to_plain_json]
    exact fun h => Option.noConfusion h

end AdminExtract

namespace AdminExtract

/-! ### Graph-operation lemmas for the build invariant -/

theorem add_node_edges (G : DiGraph) (id : Int) (d : NodeData) :
    (add_node G id d).edges = G.edges := by
  unfold add_node
  split <;> rfl

theorem add_node_nodes_sub {G : DiGraph} {id : Int} {d : NodeData}
    {x : Int × Option NodeData} (h : x ∈ (add_node G id d).nodes) :
    x = (id, some d) ∨ x ∈ G.nodes := by
  unfold add_node at h
  split at h
  · simp only [List.mem_map] at h
    obtain ⟨y, hy, hxy⟩ := h
    by_cases hid : y.1 = id
    · rw [if_pos hid] at hxy
      exact Or.inl hxy.symm
    · rw [if_neg hid] at hxy
      exact Or.inr (hxy ▸ hy)
  · rcases List.mem_append.mp h with h' | h'
    · exact Or.inr h'
    · exact Or.inl (List.mem_singleton.mp h')

theorem ensure_node_edges (G : DiGraph) (id : Int) :
    (ensure_node G id).edges = G.edges := by
  unfold ensure_node
  split <;> rfl

theorem ensure_node_nodes_sub {G : DiGraph} {id : Int}
    {x : Int × Option NodeData} (h : x ∈ (ensure_node G id).nodes) :
    x = (id, none) ∨ x ∈ G.nodes := by
  unfold ensure_node at h
  split at h
  · exact Or.inr h
  · rcases List.mem_append.mp h with h' | h'
    · exact Or.inr h'
    · exact Or.inl (List.mem_singleton.mp h')

theorem add_edge_edges_sub {G : DiGraph} {a b : Int} {e : Int × Int}
    (h : e ∈ (add_edge G a b).edges) : e = (a, b) ∨ e ∈ G.edges := by
  simp only [add_edge] at h
  have hens : (ensure_node (ensure_node G a) b).edges = G.edges := by
    rw [ensure_node_edges, ensure_node_edges]
  split at h
  · rw [hens] at h
    exact Or.inr h
  · rw [hens] at h
    rcases List.mem_append.mp h with h' | h'
    · exact Or.inr h'
    · exact Or.inl (List.mem_singleton.mp h')

theorem add_edge_edges_super {G : DiGraph} {a b : Int} {e : Int × Int}
    (h : e ∈ G.edges) : e ∈ (add_edge G a b).edges := by
  simp only [add_edge]
  have hens : (ensure_node (ensure_node G a) b).edges = G.edges := by
    rw [ensure_node_edges, ensure_node_edges]
  split
  · rw [hens]
    exact h
  · rw [hens]
    exact List.mem_append_left _ h

theorem add_edge_mem (G : DiGraph) (a b : Int) :
    (a, b) ∈ (add_edge G a b).edges := by
  simp only [add_edge]
  split
  · assumption
  · exact List.mem_append_right _ (List.mem_singleton_self _)

theorem add_edge_nodes_sub {G : DiGraph} {a b : Int}
    {x : Int × Option NodeData} (h : x ∈ (add_edge G a b).nodes) :
    x = (a, none) ∨ x = (b, none) ∨ x ∈ G.nodes := by
  simp only [add_edge] at h
  have hn : (if (a, b) ∈ (ensure_node (ensure_node G a) b).edges
      then ensure_node (ensure_node G a) b
      else { ensure_node (ensure_node G a) b with
        edges := (ensure_node (ensure_node G a) b).edges ++ [(a, b)] }).nodes =
      (ensure_node (ensure_node G a) b).nodes := by
    split <;> rfl
  rw [hn] at h
  rcases ensure_node_nodes_sub h with h' | h'
  · exact Or.inr (Or.inl h')
  · rcases ensure_node_nodes_sub h' with h'' | h''
    · exact Or.inl h''
    · exact Or.inr (Or.inr h'')

end AdminExtract

namespace AdminExtract

theorem memberFold_preserves (rd : List (Int × Relation)) (i : Int)
    (r : Relation) (hir : (i, r) ∈ rd)
    (hadmin : r.tags.lookup "boundary" = some "administrative") :
    ∀ (ms : List Member), (∀ m ∈ ms, m ∈ r.members) → ∀ H : DiGraph,
      edgeInv rd H → nodeInv rd H →
      edgeInv rd (ms.foldl (buildMemberStep rd i) H) ∧
        nodeInv rd (ms.foldl (buildMemberStep rd i) H) := by
  intro ms
  induction ms with
  | nil => exact fun _ H hE hN => ⟨hE, hN⟩
  | cons m rest ih =>
    intro hms H hE hN
    rw [List.foldl_cons]
    refine ih (fun m' hm' => hms m' (List.mem_cons_of_mem _ hm')) _ ?_ ?_
    · -- edgeInv after one member step
      unfold buildMemberStep
      split
      · rename_i hcond
        intro e he
        rcases add_edge_edges_sub he with he' | he'
        · subst he'
          exact ⟨r, hir, hadmin,
            ⟨m, hms m (List.mem_cons_self _ _), hcond.1, rfl⟩, hcond.2⟩
        · exact hE e he'
      · exact hE
    · -- nodeInv after one member step
      unfold buildMemberStep
      split
      · rename_i hcond
        intro x hx
        rcases add_edge_nodes_sub hx with hx' | hx' | hx'
        · subst hx'
          exact Or.inl ⟨r, hir, hadmin⟩
        · subst hx'
          exact Or.inr ⟨i, add_edge_mem H i m.ref⟩
        · rcases hN x hx' with h | ⟨a, ha⟩
          · exact Or.inl h
          · exact Or.inr ⟨a, add_edge_edges_super ha⟩
      · exact hN

theorem relFold_preserves (rd : List (Int × Relation)) :
    ∀ (l : List (Int × Relation)), (∀ p ∈ l, p ∈ rd) → ∀ G : DiGraph,
      edgeInv rd G → nodeInv rd G →
      edgeInv rd (l.foldl (buildRelStep rd) G) ∧
        nodeInv rd (l.foldl (buildRelStep rd) G) := by
  intro l
  induction l with
  | nil => exact fun _ G hE hN => ⟨hE, hN⟩
  | cons p rest ih =>
    intro hl G hE hN
    rw [List.foldl_cons]
    have hp : p ∈ rd := hl p (List.mem_cons_self _ _)
    have hstep : edgeInv rd (buildRelStep rd G p) ∧
        nodeInv rd (buildRelStep rd G p) := by
      unfold buildRelStep
      simp only []
      split
      · rename_i hadmin
        have hir : (p.1, p.2) ∈ rd := hp
        refine memberFold_preserves rd p.1 p.2 hir hadmin p.2.members
          (fun m hm => hm) _ ?_ ?_
        · -- edgeInv survives add_node
          intro e he
          rw [add_node_edges] at he
          exact hE e he
        · -- nodeInv survives add_node
          intro x hx
          rcases add_node_nodes_sub hx with hx' | hx'
          · subst hx'
            exact Or.inl ⟨p.2, hir, hadmin⟩
          · rcases hN x hx' with h | ⟨a, ha⟩
            · exact Or.inl h
            · refine Or.inr ⟨a, ?_⟩
              rw [add_node_edges]
              exact ha
      · exact ⟨hE, hN⟩
    exact ih (fun q hq => hl q (List.mem_cons_of_mem _ hq)) _ hstep.1 hstep.2

/-- C1 counterexample: `build_graph` on an administrative relation 1 whose
`subarea` member references relation 2, present in the mapping but **not**
tagged `boundary=administrative`: node 2 still enters the graph (created by
`add_edge`) and the edge (1→2) is added, contradicting both the node part
and the edge part of the claimed invariant. -/
theorem claim_C1_counterexample :
    (2 : Int) ∈ nodeIds (build_graph nonAdminTarget) ∧
      (1, 2) ∈ (build_graph nonAdminTarget).edges ∧
      (nonAdminTarget.lookup (2 : Int)).map
        (fun r => r.tags.lookup "boundary") = some none :=
  ⟨by decide, by decide, by decide⟩

/-- C1 amended: in every built graph, each edge (A→B) comes from an
administrative relation A that has a `subarea` member referencing B with B a
key of the input mapping — but B's own tags are never checked — and each
node either came from an administrative relation or was introduced
implicitly as the target of such an edge. -/
theorem claim_C1_amended_build_invariant (rd : List (Int × Relation)) :
    edgeInv rd (build_graph rd) ∧ nodeInv rd (build_graph rd) := by
  unfold build_graph
  refine relFold_preserves rd rd (fun p hp => hp) emptyGraph ?_ ?_
  · intro e he
    exact absurd he (List.not_mem_nil e)
  · intro x hx
    exact absurd hx (List.not_mem_nil x)

/-- C1's amended-claim witness: instantiating the invariant on the
counterexample input at its concrete edge and implicit node. -/
theorem claim_C1_amended_witness :
    (∃ r, ((1 : Int), r) ∈ nonAdminTarget ∧
      r.tags.lookup "boundary" = some "administrative" ∧
      (∃ m ∈ r.members, m.role = "subarea" ∧ m.ref = (2 : Int)) ∧
      (2 : Int) ∈ nonAdminTarget.map Prod.fst) ∧
    ((∃ r, ((2 : Int), r) ∈ nonAdminTarget ∧
      r.tags.lookup "boundary" = some "administrative") ∨
      ∃ a, (a, (2 : Int)) ∈ (build_graph nonAdminTarget).edges) := by
  have h := claim_C1_amended_build_invariant nonAdminTarget
  exact ⟨h.1 (1, 2) (by decide), h.2 (2, none) (by decide)⟩

end AdminExtract

namespace AdminExtract

/-- C8 counterexample: adminextract.py's `graph_to_nested_json` (one of the
two cited nested serializers), run on Scenario A with no levels set,
serializes the terminal node 2 **without** any `subareas` key, so its output
is not the claimed JSON (whose node 2 carries `"subareas": []`). -/
theorem claim_C8_counterexample :
    graph_to_nested_json_adminextract (build_graph scenarioA) 1 none none 3 =
      .val (some (J.obj
        [("id", J.num 1), ("admin_level", J.str "2"), ("name", J.str "Country"),
         ("ref", J.null),
         ("subareas", J.arr
           [J.obj [("id", J.num 2), ("admin_level", J.str "4"),
             ("name", J.str "Province"), ("ref", J.null)]])])) ∧
    J.obj [("id", J.num 2), ("admin_level", J.str "4"),
      ("name", J.str "Province"), ("ref", J.null)] ≠
    J.obj [("id", J.num 2), ("admin_level", J.str "4"),
      ("name", J.str "Province"), ("ref", J.null), ("subareas", J.arr [])] :=
  ⟨rfl, by simp⟩

/-- C8 amended: transform.py's `graph_to_nested_json` serializes a terminal
node as a dict ending in an empty `subareas` list and yields exactly the
claimed Scenario A JSON; adminextract.py's variant instead omits the
`subareas` key on terminal nodes. -/
theorem claim_C8_amended_terminal_subareas :
    (∀ (G : DiGraph) (node : Int) (attrs : Option NodeData) (f : Nat),
      G.nodes.lookup node = some attrs → successors G node = [] →
      recurseT G (f + 1) node =
        .val (J.obj (("id", J.num node) :: attrFields attrs ++
          [("subareas", J.arr [])]))) ∧
    graph_to_nested_json (build_graph scenarioA) 1 3 =
      .val (J.obj
        [("id", J.num 1), ("admin_level", J.str "2"), ("name", J.str "Country"),
         ("ref", J.null),
         ("subareas", J.arr
           [J.obj [("id", J.num 2), ("admin_level", J.str "4"),
             ("name", J.str "Province"), ("ref", J.null),
             ("subareas", J.arr [])]])]) ∧
    (∀ (G : DiGraph) (node : Int) (attrs : Option NodeData) (lvl : Int) (f : Nat),
      G.nodes.lookup node = some attrs → getAdminDefault0 attrs = some lvl →
      successors G node = [] →
      recurseA G none none (f + 1) node =
        .val (some (J.obj (("id", J.num node) :: attrFields attrs)))) := by
  refine ⟨?_, rfl, ?_⟩
  · intro G node attrs f hlook hsucc
    unfold recurseT
    rw [hlook]
    simp only []
    rw [hsucc]
    rfl
  · intro G node attrs lvl f hlook hlvl hsucc
    unfold recurseA
    rw [hlook]
    simp only []
    rw [hlvl]
    simp only []
    rw [hsucc]
    rfl

/-- C8's amended-claim witness: the terminal node 2 of Scenario A under both
serializers. -/
theorem claim_C8_witness :
    recurseT (build_graph scenarioA) 1 2 =
      .val (J.obj (("id", J.num 2) ::
        attrFields (some ⟨some "4", some "Province", none⟩) ++
        [("subareas", J.arr [])])) ∧
    recurseA (build_graph scenarioA) none none 1 2 =
      .val (some (J.obj (("id", J.num 2) ::
        attrFields (some ⟨some "4", some "Province", none⟩)))) := by
  have h := claim_C8_amended_terminal_subareas
  exact ⟨h.1 (build_graph scenarioA) 2 (some ⟨some "4", some "Province", none⟩)
      0 (by decide) (by decide),
    h.2.2 (build_graph scenarioA) 2 (some ⟨some "4", some "Province", none⟩)
      4 0 (by decide) (by decide) (by decide)⟩

end AdminExtract

namespace AdminExtract

theorem successors_mem {G : DiGraph} {x c : Int} (h : c ∈ successors G x) :
    (x, c) ∈ G.edges := by
  unfold successors at h
  rcases List.mem_map.mp h with ⟨e, hef, rfl⟩
  obtain ⟨he, hcond⟩ := List.mem_filter.mp hef
  simp only [decide_eq_true_eq] at hcond
  have he2 : (e.1, e.2) ∈ G.edges := by
    rw [Prod.mk.eta]
    exact he
  rw [hcond] at he2
  exact he2

theorem lookup_of_mem_ids : ∀ {l : List (Int × Option NodeData)} {n : Int},
    n ∈ l.map Prod.fst → ∃ v, l.lookup n = some v := by
  intro l
  induction l with
  | nil =>
    intro n h
    simp at h
  | cons p rest ih =>
    intro n h
    obtain ⟨k, w⟩ := p
    rw [List.map_cons] at h
    by_cases hk : n = k
    · exact ⟨w, by simp [List.lookup, hk]⟩
    · have h' : n ∈ rest.map Prod.fst := by
        rcases List.mem_cons.mp h with h'' | h''
        · exact absurd h'' hk
        · exact h''
      obtain ⟨v, hv⟩ := ih h'
      refine ⟨v, ?_⟩
      have hbeq : (n == k) = false := by simp [hk]
      simp [List.lookup, hbeq, hv]

theorem collectN_vals : ∀ {outs : List NestOut},
    (∀ o ∈ outs, ∃ j, o = NestOut.val j) → ∃ js, collectN outs = .inl js := by
  intro outs
  induction outs with
  | nil => exact fun _ => ⟨[], rfl⟩
  | cons o rest ih =>
    intro h
    obtain ⟨j, hj⟩ := h o (List.mem_cons_self _ _)
    subst hj
    obtain ⟨js, hjs⟩ := ih (fun o' ho' => h o' (List.mem_cons_of_mem _ ho'))
    exact ⟨j :: js, by simp [collectN, hjs]⟩

theorem reachList_mono_edge {G : DiGraph} {x c : Int} (he : (x, c) ∈ G.edges) :
    reachList G c ⊆ reachList G x := by
  intro y hy
  have h1 : Reach G c y := reachList_sound hy
  have h2 : Reach G x c := (Reach.refl x).step he
  exact reachList_complete (h2.trans h1)

theorem reach_card_lt {G : DiGraph} {root x c : Int} (he : (x, c) ∈ G.edges)
    (hx : x ∈ reachList G root) (hacyc : noReachCycle G root) :
    (reachList G c).toFinset.card < (reachList G x).toFinset.card := by
  have hsub : (reachList G c).toFinset ⊆ (reachList G x).toFinset := by
    intro y hy
    rw [List.mem_toFinset] at hy ⊢
    exact reachList_mono_edge he hy
  have hxx : x ∈ (reachList G x).toFinset := by
    rw [List.mem_toFinset]
    exact root_mem_reachList G x
  have hxc : x ∉ (reachList G c).toFinset := by
    rw [List.mem_toFinset]
    exact hacyc (x, c) he hx
  exact Finset.card_lt_card
    ((Finset.ssubset_iff_of_subset hsub).mpr ⟨x, hxx, hxc⟩)

theorem recurseT_total_aux {G : DiGraph} {root : Int}
    (hwf : reachWellFormed G root) (hacyc : noReachCycle G root) :
    ∀ (n : Nat) (x : Int), Reach G root x →
      (reachList G x).toFinset.card ≤ n →
      ∃ j, recurseT G (n + 1) x = .val j := by
  intro n
  induction n with
  | zero =>
    intro x hreach hcard
    exfalso
    have hmem : x ∈ (reachList G x).toFinset := by
      rw [List.mem_toFinset]
      exact root_mem_reachList G x
    have := Finset.card_pos.mpr ⟨x, hmem⟩
    omega
  | succ n ih =>
    intro x hreach hcard
    have hxR : x ∈ reachList G root := reachList_complete hreach
    have hxid : x ∈ nodeIds G := hwf x hxR
    obtain ⟨attrs, hattrs⟩ := lookup_of_mem_ids hxid
    have hchild : ∀ o ∈ (successors G x).map (recurseT G (n + 1)),
        ∃ j, o = NestOut.val j := by
      intro o ho
      rcases List.mem_map.mp ho with ⟨c, hc, rfl⟩
      have he := successors_mem hc
      have hreachc : Reach G root c := hreach.step he
      have hlt := reach_card_lt he hxR hacyc
      exact ih c hreachc (by omega)
    obtain ⟨js, hjs⟩ := collectN_vals hchild
    refine ⟨J.obj (("id", J.num x) :: attrFields attrs ++
      [("subareas", J.arr js)]), ?_⟩
    show recurseT G (n + 1 + 1) x = _
    unfold recurseT
    rw [hattrs]
    simp only []
    rw [hjs]

/-- C9: on a finite graph whose subgraph reachable from `root_id` is acyclic
(and whose reachable ids are all nodes), the nested serialization terminates
with a value for some recursion-depth fuel; and on a concrete reachable
cycle it exhausts **every** fuel — the recursion never terminates. -/
theorem claim_C9_terminates_on_dag :
    (∀ (G : DiGraph) (root_id : Int),
      reachWellFormed G root_id → noReachCycle G root_id →
      ∃ fuel j, graph_to_nested_json G root_id fuel = .val j) ∧
    (∀ fuel, graph_to_nested_json cycGraph 1 fuel = .noFuel) := by
  constructor
  · intro G root hwf hacyc
    obtain ⟨j, hj⟩ := recurseT_total_aux hwf hacyc
      (reachList G root).toFinset.card root (.refl root) le_rfl
    exact ⟨(reachList G root).toFinset.card + 1, j, hj⟩
  · intro fuel
    have main : ∀ f, recurseT cycGraph f 1 = .noFuel ∧
        recurseT cycGraph f 2 = .noFuel := by
      intro f
      induction f with
      | zero => exact ⟨rfl, rfl⟩
      | succ g ih =>
        obtain ⟨ih1, ih2⟩ := ih
        constructor
        · show recurseT cycGraph (g + 1) 1 = .noFuel
          unfold recurseT
          rw [show List.lookup (1 : Int) cycGraph.nodes = some none from rfl]
          simp only []
          rw [show successors cycGraph 1 = [2] from rfl]
          rw [List.map_cons, List.map_nil, ih2]
          rfl
        · show recurseT cycGraph (g + 1) 2 = .noFuel
          unfold recurseT
          rw [show List.lookup (2 : Int) cycGraph.nodes = some none from rfl]
          simp only []
          rw [show successors cycGraph 2 = [1] from rfl]
          rw [List.map_cons, List.map_nil, ih1]
          rfl
    exact (main fuel).1

/-- C9's witness: Scenario A's graph is a well-formed DAG from root 1, and
the serializer indeed returns a value for some fuel. -/
theorem claim_C9_witness :
    ∃ fuel j, graph_to_nested_json (build_graph scenarioA) 1 fuel = .val j :=
  claim_C9_terminates_on_dag.1 (build_graph scenarioA) 1 (by decide) (by decide)

end AdminExtract

namespace AdminExtract

theorem recurseSt_spec :
    ∀ f : Nat,
      (∀ (node : Int) (G : DiGraph),
        recurseTSt f node G = (recurseT G f node, G)) ∧
      (∀ (l : List Int) (G : DiGraph),
        recurseListSt f l G = (l.map (recurseT G f), G)) := by
  have listPart : ∀ f : Nat,
      (∀ (node : Int) (G : DiGraph),
        recurseTSt f node G = (recurseT G f node, G)) →
      ∀ (l : List Int) (G : DiGraph),
        recurseListSt f l G = (l.map (recurseT G f), G) := by
    intro f hnode l
    induction l with
    | nil =>
      intro G
      unfold recurseListSt
      rfl
    | cons c rest ih =>
      intro G
      unfold recurseListSt
      simp only []
      rw [hnode c G]
      simp only []
      rw [ih G]
      rfl
  intro f
  induction f with
  | zero =>
    have hz : ∀ (node : Int) (G : DiGraph),
        recurseTSt 0 node G = (recurseT G 0 node, G) := by
      intro node G
      unfold recurseTSt
      rfl
    exact ⟨hz, listPart 0 hz⟩
  | succ g ih =>
    have hnode : ∀ (node : Int) (G : DiGraph),
        recurseTSt (g + 1) node G = (recurseT G (g + 1) node, G) := by
      intro node G
      rcases hl : G.nodes.lookup node with _ | attrs
      · unfold recurseTSt recurseT
        simp only [lookupSt, hl]
      · unfold recurseTSt recurseT
        simp only [lookupSt, hl]
        simp only [successorsSt]
        rw [listPart g ih.1 (successors G node) G]
        simp only []
        rcases hc : collectN ((successors G node).map (recurseT G g)) with js | e
        · rfl
        · rfl
    exact ⟨hnode, listPart (g + 1) hnode⟩

/-- C10: the serializers are read-only — threading the graph object through
every access they make, transform.py's nested serializer and the flat
serializer return the graph unchanged (same node list, edge list and
attributes), and their value component coincides with the pure
`graph_to_nested_json` / `graph_to_plain_json`. -/
theorem claim_C10_serializers_read_only :
    (∀ (G : DiGraph) (root_id : Int) (fuel : Nat),
      (recurseTSt fuel root_id G).2 = G ∧
      (recurseTSt fuel root_id G).1 = graph_to_nested_json G root_id fuel) ∧
    (∀ (G : DiGraph) (admin_level : Option Int),
      (graph_to_plain_json_st G admin_level).2 = G ∧
      (graph_to_plain_json_st G admin_level).1 =
        graph_to_plain_json G admin_level) := by
  constructor
  · intro G root fuel
    rw [(recurseSt_spec fuel).1 root G]
    exact ⟨rfl, rfl⟩
  · intro G admin_level
    unfold graph_to_plain_json_st graph_to_plain_json nodesSt
    rcases admin_level with _ | lvl
    · exact ⟨rfl, rfl⟩
    · exact ⟨rfl, rfl⟩

end AdminExtract
